import Mathlib

/-!
Verification of the retrieval/ranking core of `src/rag-demo/rag.py`.

The Python source is shallowly embedded below.  Conventions used throughout:

* The tokenizer (`tiktoken` in the source, an external collaborator per the
  spec) is a parameter `tok : String → Nat`; `len(encoding.encode(s))`
  becomes `tok s`.
* Float scores are modelled as rationals `ℚ`; the claims under study are
  about the order/arithmetic structure of the score computations, which the
  source performs with ordinary `+`, `*`, `<` on IEEE doubles and which the
  counterexamples below exercise only at exactly representable values.
* Python `dict`s (which preserve insertion order) are modelled as
  association lists in insertion order, with an upsert operation.
* Python's `sorted(..., key=..., reverse=True)` / `list.sort` are stable;
  a stable descending sort by score is the unique ordering by the total
  order "score descending, original position ascending", which is how
  `sortByScoreDesc` below is implemented (decorate with position, sort by
  that total order, undecorate).
* `datetime` timestamps and `timedelta(hours=...)` are modelled as
  rationals measured in hours.
-/

namespace Rag

/-- Structured content block produced by `extract_structured_content`
(`rag.py` lines 202-253).  `kind` is one of `"heading"`, `"code"`,
`"list"`, `"table"`, `"text"`; `language` holds the rendered language tag
of a code block (the string interpolated by `combine_blocks`). -/
structure Block where
  kind : String
  content : String
  language : String
deriving DecidableEq

/-- Formatting of one block inside `DocumentProcessor.combine_blocks`
(`rag.py` lines 341-352): headings get a `## ` line, code blocks are
fenced with their language tag, lists and tables are wrapped in newlines,
plain text is kept as is. -/
def formatBlock (b : Block) : String :=
  if b.kind = "heading" then "\n## " ++ b.content ++ "\n"
  else if b.kind = "code" then "\n```" ++ b.language ++ "\n" ++ b.content ++ "\n```\n"
  else if b.kind = "list" then "\n" ++ b.content ++ "\n"
  else if b.kind = "table" then "\n" ++ b.content ++ "\n"
  else b.content

/-- Model of Python's `str.strip()`: drop whitespace from both ends.
Written over the character list so that it evaluates by kernel
reduction. -/
def pyStrip (s : String) : String :=
  ⟨((s.data.dropWhile Char.isWhitespace).reverse.dropWhile Char.isWhitespace).reverse⟩

/-- Embedding of `DocumentProcessor.combine_blocks` (`rag.py` lines
337-354): format every block, join with `'\x7bn'.join`, then `strip()`. -/
def combine_blocks (blocks : List Block) : String :=
  pyStrip (String.intercalate "\n" (blocks.map formatBlock))

/-- Running token total of a list of blocks, i.e.
`sum(len(self.encoding.encode(b['content'])) for b in blocks)`
(`rag.py` line 317). -/
def sumTok (tok : String → Nat) (blocks : List Block) : Nat :=
  (blocks.map (fun b => tok b.content)).sum

/-- Loop body of `DocumentProcessor.get_overlap_blocks` (`rag.py` lines
362-371): walk the closed buffer from the end (`rev` is the reversed
buffer), prepending whole blocks while the accumulated token count stays
within `chunk_overlap`, stopping at the first block that does not fit. -/
def overlapGo (tok : String → Nat) (co : Nat) : List Block → Nat → List Block → List Block
  | [], _, acc => acc
  | b :: rest, otoks, acc =>
    if otoks + tok b.content ≤ co then overlapGo tok co rest (otoks + tok b.content) (b :: acc)
    else acc

/-- Embedding of `DocumentProcessor.get_overlap_blocks` (`rag.py` lines
356-373). -/
def get_overlap_blocks (tok : String → Nat) (co : Nat) (blocks : List Block) : List Block :=
  overlapGo tok co blocks.reverse 0 []

/-- Loop state of `DocumentProcessor.create_contextual_chunks` (`rag.py`
lines 285-288): chunks emitted so far (each recorded as its buffer of
blocks), the pending buffer `current_chunk`, and `current_size`.  The
source additionally threads `current_section` (attached to the metadata of
each emitted chunk) and derives chunk ids and URLs; those metadata fields
do not bear on the block/content claims proved here and are not recorded. -/
structure CCState where
  chunks : List (List Block)
  cur : List Block
  size : Nat
deriving DecidableEq

/-- Body of the `for` loop of `create_contextual_chunks` (`rag.py` lines
292-320): when adding the next block would push the running count over
`chunk_size` and the buffer is non-empty, the buffer is closed into a
chunk and the next buffer is seeded with the overlap blocks of the closed
buffer followed by the triggering block, with `current_size` recomputed;
otherwise the block is appended. -/
def ccStep (tok : String → Nat) (cs co : Nat) (st : CCState) (b : Block) : CCState :=
  let t := tok b.content
  if cs < st.size + t ∧ st.cur ≠ [] then
    let ov := get_overlap_blocks tok co st.cur
    ⟨st.chunks ++ [st.cur], ov ++ [b], sumTok tok (ov ++ [b])⟩
  else
    ⟨st.chunks, st.cur ++ [b], st.size + t⟩

/-- State after the `for` loop of `create_contextual_chunks`. -/
def ccFold (tok : String → Nat) (cs co : Nat) (blocks : List Block) : CCState :=
  blocks.foldl (ccStep tok cs co) ⟨[], [], 0⟩

/-- Chunks closed inside the loop of `create_contextual_chunks`, i.e.
exactly the chunks whose buffer was closed because adding the next block
would exceed `chunk_size` (`rag.py` lines 301-312); the final flushed
buffer (lines 323-333) is not among them. -/
def loopChunks (tok : String → Nat) (cs co : Nat) (blocks : List Block) : List (List Block) :=
  (ccFold tok cs co blocks).chunks

/-- Trailing flush of `create_contextual_chunks` (`rag.py` lines
323-333): a remaining non-empty buffer becomes a final chunk. -/
def ccFinal (st : CCState) : List (List Block) :=
  if st.cur ≠ [] then st.chunks ++ [st.cur] else st.chunks

/-- Embedding of `DocumentProcessor.create_contextual_chunks` (`rag.py`
lines 277-335), recording each emitted chunk as its list of blocks; the
emitted chunk's `content` string is `combine_blocks` of that list. -/
def create_contextual_chunks (tok : String → Nat) (cs co : Nat) (blocks : List Block) :
    List (List Block) :=
  ccFinal (ccFold tok cs co blocks)

/-! Basic lemmas about the chunker. -/

theorem sumTok_append (tok : String → Nat) (l : List Block) (b : Block) :
    sumTok tok (l ++ [b]) = sumTok tok l + tok b.content := by
  simp [sumTok]

theorem sumTok_cons (tok : String → Nat) (b : Block) (l : List Block) :
    sumTok tok (b :: l) = tok b.content + sumTok tok l := by
  simp [sumTok]

theorem overlapGo_sum_le (tok : String → Nat) (co : Nat) :
    ∀ (rev : List Block) (otoks : Nat) (acc : List Block),
      sumTok tok acc = otoks → otoks ≤ co →
      sumTok tok (overlapGo tok co rev otoks acc) ≤ co := by
  intro rev
  induction rev with
  | nil => intro otoks acc h1 h2; simpa [overlapGo, h1] using h2
  | cons b rest ih =>
    intro otoks acc h1 h2
    by_cases hle : otoks + tok b.content ≤ co
    · simp only [overlapGo, if_pos hle]
      exact ih (otoks + tok b.content) (b :: acc)
        (by rw [sumTok_cons, h1, Nat.add_comm]) hle
    · simpa [overlapGo, if_neg hle, h1] using h2

theorem get_overlap_blocks_sum_le (tok : String → Nat) (co : Nat) (l : List Block) :
    sumTok tok (get_overlap_blocks tok co l) ≤ co :=
  overlapGo_sum_le tok co l.reverse 0 [] (by simp [sumTok]) (Nat.zero_le co)

theorem overlapGo_isSuffix (tok : String → Nat) (co : Nat) :
    ∀ (rev : List Block) (otoks : Nat) (acc : List Block),
      overlapGo tok co rev otoks acc <:+ rev.reverse ++ acc := by
  intro rev
  induction rev with
  | nil => intro otoks acc; simp [overlapGo]
  | cons b rest ih =>
    intro otoks acc
    by_cases hle : otoks + tok b.content ≤ co
    · simp only [overlapGo, if_pos hle]
      have h := ih (otoks + tok b.content) (b :: acc)
      simpa [List.append_assoc] using h
    · simp only [overlapGo, if_neg hle]
      exact List.suffix_append _ acc

theorem get_overlap_blocks_isSuffix (tok : String → Nat) (co : Nat) (l : List Block) :
    get_overlap_blocks tok co l <:+ l := by
  have h := overlapGo_isSuffix tok co l.reverse 0 []
  simpa [get_overlap_blocks] using h

theorem ccStep_size (tok : String → Nat) (cs co : Nat) (st : CCState) (b : Block)
    (h : st.size = sumTok tok st.cur) :
    (ccStep tok cs co st b).size = sumTok tok (ccStep tok cs co st b).cur := by
  simp only [ccStep]
  by_cases hc : cs < st.size + tok b.content ∧ st.cur ≠ []
  · rw [if_pos hc]
  · rw [if_neg hc]; simpa [sumTok_append] using h

theorem ccFoldl_size (tok : String → Nat) (cs co : Nat) :
    ∀ (blocks : List Block) (st : CCState), st.size = sumTok tok st.cur →
      (blocks.foldl (ccStep tok cs co) st).size =
        sumTok tok (blocks.foldl (ccStep tok cs co) st).cur := by
  intro blocks
  induction blocks with
  | nil => intro st h; simpa using h
  | cons b rest ih =>
    intro st h
    simpa [List.foldl_cons] using ih (ccStep tok cs co st b) (ccStep_size tok cs co st b h)

theorem ccStep_chunks_mono (tok : String → Nat) (cs co : Nat) (st : CCState) (b : Block)
    {c : List Block} (h : c ∈ st.chunks) : c ∈ (ccStep tok cs co st b).chunks := by
  by_cases hc : cs < st.size + tok b.content ∧ st.cur ≠ []
  · simp only [ccStep, if_pos hc]
    exact List.mem_append_left _ h
  · simpa [ccStep, if_neg hc] using h

theorem ccFoldl_chunks_mono (tok : String → Nat) (cs co : Nat) :
    ∀ (blocks : List Block) (st : CCState) (c : List Block), c ∈ st.chunks →
      c ∈ (blocks.foldl (ccStep tok cs co) st).chunks := by
  intro blocks
  induction blocks with
  | nil => intro st c h; simpa using h
  | cons b rest ih =>
    intro st c h
    exact ih (ccStep tok cs co st b) c (ccStep_chunks_mono tok cs co st b h)

theorem mem_ccFinal_of_mem_chunks {st : CCState} {c : List Block} (h : c ∈ st.chunks) :
    c ∈ ccFinal st := by
  unfold ccFinal
  split
  · exact List.mem_append_left _ h
  · exact h

/-- Chunk-buffer bound that the loop of `create_contextual_chunks` actually
maintains: a buffer either fits the size limit, or everything before its
last block (an overlap seed) fits the overlap limit. -/
def ChunkBound (tok : String → Nat) (cs co : Nat) (c : List Block) : Prop :=
  sumTok tok c ≤ cs ∨ sumTok tok c.dropLast ≤ co

theorem ccFoldl_chunkBound (tok : String → Nat) (cs co : Nat) :
    ∀ (blocks : List Block) (st : CCState),
      st.size = sumTok tok st.cur →
      ChunkBound tok cs co st.cur →
      (∀ c ∈ st.chunks, ChunkBound tok cs co c) →
      ∀ c ∈ (blocks.foldl (ccStep tok cs co) st).chunks, ChunkBound tok cs co c := by
  intro blocks
  induction blocks with
  | nil => intro st _ _ hchunks; simpa using hchunks
  | cons b rest ih =>
    intro st hsize hcur hchunks
    rw [List.foldl_cons]
    refine ih (ccStep tok cs co st b) (ccStep_size tok cs co st b hsize) ?_ ?_
    · simp only [ccStep]
      by_cases hc : cs < st.size + tok b.content ∧ st.cur ≠ []
      · rw [if_pos hc]
        exact Or.inr (by
          simpa [List.dropLast_concat] using get_overlap_blocks_sum_le tok co st.cur)
      · rw [if_neg hc]
        rcases Decidable.not_and_iff_or_not.mp hc with hlt | hne
        · exact Or.inl (by
            rw [show CCState.cur ⟨st.chunks, st.cur ++ [b], st.size + tok b.content⟩ =
                  st.cur ++ [b] from rfl,
              sumTok_append, ← hsize]
            exact Nat.le_of_not_lt hlt)
        · have hnil : st.cur = [] := Decidable.not_not.mp hne
          exact Or.inr (by simp [hnil, sumTok])
    · simp only [ccStep]
      by_cases hc : cs < st.size + tok b.content ∧ st.cur ≠ []
      · rw [if_pos hc]
        intro c hcmem
        rcases List.mem_append.mp hcmem with hcm | hcm
        · exact hchunks c hcm
        · rwa [List.mem_singleton.mp hcm]
      · rw [if_neg hc]
        exact hchunks

/-- Claim C1 as stated by the spec: every chunk closed inside the loop
because adding the next block would exceed `chunk_size` — excluding a
chunk that is a lone block whose token count alone exceeds the limit —
has a combined-content token count of at most `chunk_size`. -/
def C1Claim : Prop :=
  ∀ (tok : String → Nat) (cs co : Nat) (blocks : List Block),
    ∀ c ∈ loopChunks tok cs co blocks,
      ¬ (∃ b, c = [b] ∧ cs < tok b.content) →
      tok (combine_blocks c) ≤ cs

/-- C1 is refuted by the source: with a character-count tokenizer,
`chunk_size = 10` and `chunk_overlap = 5`, the blocks
`["aaa", "aaaaaaaa", "a"]` make the loop close the buffer
`["aaa", "aaaaaaaa"]` (an overlap seed of 3 tokens plus an 8-token
trigger block, 11 tokens in total, no single block oversized), whose
combined content has 12 tokens, exceeding the limit of 10. -/
theorem c1_counterexample : ¬ C1Claim := by
  intro h
  have hmem : [(⟨"text", "aaa", ""⟩ : Block), ⟨"text", "aaaaaaaa", ""⟩] ∈
      loopChunks (fun s => s.length) 10 5
        [⟨"text", "aaa", ""⟩, ⟨"text", "aaaaaaaa", ""⟩, ⟨"text", "a", ""⟩] := by decide
  have hnotlone : ¬ (∃ b, [(⟨"text", "aaa", ""⟩ : Block), ⟨"text", "aaaaaaaa", ""⟩] = [b] ∧
      10 < (fun s => s.length) b.content) := by
    rintro ⟨b, hb, -⟩
    simp at hb
  have hle := h (fun s => s.length) 10 5
    [⟨"text", "aaa", ""⟩, ⟨"text", "aaaaaaaa", ""⟩, ⟨"text", "a", ""⟩]
    [⟨"text", "aaa", ""⟩, ⟨"text", "aaaaaaaa", ""⟩] hmem hnotlone
  exact absurd hle (by decide)

/-- C1 amended (what the loop of `create_contextual_chunks` guarantees):
for every chunk closed inside the loop due to size, either the sum of the
per-block token counts of its blocks is at most `chunk_size`, or all of
its blocks except the last form an overlap seed whose token sum is at
most `chunk_overlap` (the chunk is then an overlap seed plus the single
block whose arrival triggered the previous split, and no further block
was ever appended to it).  The bound is on the sum of per-block token
counts — the running total the source tracks — not on the token count of
the final combined content string, which `combine_blocks` additionally
pads with join/formatting characters. -/
theorem c1_amended (tok : String → Nat) (cs co : Nat) (blocks : List Block) :
    ∀ c ∈ loopChunks tok cs co blocks,
      sumTok tok c ≤ cs ∨ sumTok tok c.dropLast ≤ co := by
  intro c hc
  exact ccFoldl_chunkBound tok cs co blocks ⟨[], [], 0⟩ (by simp [sumTok])
    (Or.inl (by simp [sumTok])) (by simp) c hc

/-- Witness: the amended C1 evaluated on the counterexample document; the
over-budget loop-closed chunk `["aaa", "aaaaaaaa"]` satisfies the second
disjunct (its blocks before the last sum to 3 ≤ 5). -/
theorem c1_amended_witness :
    ([(⟨"text", "aaa", ""⟩ : Block), ⟨"text", "aaaaaaaa", ""⟩] ∈
        loopChunks (fun s => s.length) 10 5
          [⟨"text", "aaa", ""⟩, ⟨"text", "aaaaaaaa", ""⟩, ⟨"text", "a", ""⟩]) ∧
      (sumTok (fun s => s.length) [⟨"text", "aaa", ""⟩, ⟨"text", "aaaaaaaa", ""⟩] ≤ 10 ∨
        sumTok (fun s => s.length)
          [(⟨"text", "aaa", ""⟩ : Block), ⟨"text", "aaaaaaaa", ""⟩].dropLast ≤ 5) :=
  ⟨by decide, c1_amended (fun s => s.length) 10 5
    [⟨"text", "aaa", ""⟩, ⟨"text", "aaaaaaaa", ""⟩, ⟨"text", "a", ""⟩]
    [⟨"text", "aaa", ""⟩, ⟨"text", "aaaaaaaa", ""⟩] (by decide)⟩

/-- Once the pending buffer ends in a block whose token count alone
exceeds `chunk_size`, every later block triggers a split, so that buffer
reaches the output unchanged: some emitted chunk ends in that block, with
everything before it an overlap seed within `chunk_overlap`. -/
theorem ccFoldl_hugeTail (tok : String → Nat) (cs co : Nat) :
    ∀ (rest : List Block) (st : CCState) (pre : List Block) (b : Block),
      st.size = sumTok tok st.cur → st.cur = pre ++ [b] →
      sumTok tok pre ≤ co → cs < tok b.content →
      ∃ c ∈ ccFinal (rest.foldl (ccStep tok cs co) st),
        c.getLast? = some b ∧ sumTok tok c.dropLast ≤ co := by
  intro rest
  cases rest with
  | nil =>
    intro st pre b _ hcur hpre _
    refine ⟨st.cur, ?_, ?_, ?_⟩
    · unfold ccFinal
      rw [if_pos (by simp [hcur])]
      exact List.mem_append_right _ (List.mem_singleton.mpr rfl)
    · rw [hcur]; exact List.getLast?_concat pre
    · rw [hcur, List.dropLast_concat]; exact hpre
  | cons r rest' =>
    intro st pre b hsize hcur hpre hbig
    have hsz : cs < st.size := by
      rw [hsize, hcur, sumTok_append]
      exact Nat.lt_of_lt_of_le hbig (Nat.le_add_left _ _)
    have hcond : cs < st.size + tok r.content ∧ st.cur ≠ [] :=
      ⟨Nat.lt_of_lt_of_le hsz (Nat.le_add_right _ _), by simp [hcur]⟩
    have hstep : (ccStep tok cs co st r).chunks = st.chunks ++ [st.cur] := by
      simp only [ccStep]; rw [if_pos hcond]
    refine ⟨st.cur, ?_, ?_, ?_⟩
    · apply mem_ccFinal_of_mem_chunks
      apply ccFoldl_chunks_mono tok cs co rest' (ccStep tok cs co st r)
      rw [hstep]
      exact List.mem_append_right _ (List.mem_singleton.mpr rfl)
    · rw [hcur]; exact List.getLast?_concat pre
    · rw [hcur, List.dropLast_concat]; exact hpre

/-- Claim C2 as stated by the spec: a block whose token count alone
exceeds `chunk_size` is emitted as its own chunk — exactly that one
block, with no overlap blocks prepended and no other blocks appended. -/
def C2Claim : Prop :=
  ∀ (tok : String → Nat) (cs co : Nat) (blocks : List Block),
    ∀ b ∈ blocks, cs < tok b.content →
      [b] ∈ create_contextual_chunks tok cs co blocks

/-- C2 is refuted by the source: with a character-count tokenizer,
`chunk_size = 10` and `chunk_overlap = 5`, the document
`["aaa", "aaaaaaaaaaaa"]` contains a 12-token block exceeding the limit,
yet the emitted chunks are `[["aaa"], ["aaa", "aaaaaaaaaaaa"]]` — the
oversized block is bundled with the overlap seed `"aaa"` of the previous
chunk (line 316 of `rag.py` prepends `overlap_blocks`), never emitted on
its own. -/
theorem c2_counterexample : ¬ C2Claim := by
  intro h
  have hmem := h (fun s => s.length) 10 5
    [⟨"text", "aaa", ""⟩, ⟨"text", "aaaaaaaaaaaa", ""⟩]
    ⟨"text", "aaaaaaaaaaaa", ""⟩ (by decide) (by decide)
  exact absurd hmem (by decide)

/-- C2 amended: an oversized block is never split or dropped — it always
reaches the output whole, as the final block of some emitted chunk — but
it is not necessarily alone in that chunk: the blocks before it are an
overlap seed whose combined token count is at most `chunk_overlap`
(empty exactly when the buffer was empty when the block arrived), and no
block is ever appended after it. -/
theorem c2_amended (tok : String → Nat) (cs co : Nat) (blocks : List Block)
    (b : Block) (hmem : b ∈ blocks) (hbig : cs < tok b.content) :
    ∃ c ∈ create_contextual_chunks tok cs co blocks,
      c.getLast? = some b ∧ sumTok tok c.dropLast ≤ co := by
  obtain ⟨s, t, rfl⟩ := List.append_of_mem hmem
  unfold create_contextual_chunks ccFold
  rw [List.foldl_append, List.foldl_cons]
  set st0 := s.foldl (ccStep tok cs co) (⟨[], [], 0⟩ : CCState) with hst0
  have hsize0 : st0.size = sumTok tok st0.cur :=
    ccFoldl_size tok cs co s ⟨[], [], 0⟩ (by simp [sumTok])
  by_cases hnil : st0.cur = []
  · have hcond : ¬ (cs < st0.size + tok b.content ∧ st0.cur ≠ []) := by
      simp [hnil]
    have hstep : ccStep tok cs co st0 b =
        ⟨st0.chunks, st0.cur ++ [b], st0.size + tok b.content⟩ := by
      simp only [ccStep]; rw [if_neg hcond]
    refine ccFoldl_hugeTail tok cs co t (ccStep tok cs co st0 b) [] b ?_ ?_ ?_ hbig
    · rw [hstep, hnil]
      simp [sumTok, hnil ▸ hsize0]
    · rw [hstep, hnil]
    · simp [sumTok]
  · have hcond : cs < st0.size + tok b.content ∧ st0.cur ≠ [] :=
      ⟨Nat.lt_of_lt_of_le hbig (Nat.le_add_left _ _), hnil⟩
    have hstep : ccStep tok cs co st0 b =
        ⟨st0.chunks ++ [st0.cur], get_overlap_blocks tok co st0.cur ++ [b],
          sumTok tok (get_overlap_blocks tok co st0.cur ++ [b])⟩ := by
      simp only [ccStep]; rw [if_pos hcond]
    refine ccFoldl_hugeTail tok cs co t (ccStep tok cs co st0 b)
      (get_overlap_blocks tok co st0.cur) b ?_ ?_ ?_ hbig
    · rw [hstep]
    · rw [hstep]
    · exact get_overlap_blocks_sum_le tok co st0.cur

/-- Witness: the amended C2 on the counterexample document — the
oversized block `"aaaaaaaaaaaa"` is the last block of an emitted chunk
whose earlier blocks (`"aaa"`, the overlap seed) sum to 3 ≤ 5. -/
theorem c2_amended_witness :
    ((⟨"text", "aaaaaaaaaaaa", ""⟩ : Block) ∈
        [(⟨"text", "aaa", ""⟩ : Block), ⟨"text", "aaaaaaaaaaaa", ""⟩]) ∧
      10 < (fun s => s.length) (Block.content ⟨"text", "aaaaaaaaaaaa", ""⟩) ∧
      ∃ c ∈ create_contextual_chunks (fun s => s.length) 10 5
          [⟨"text", "aaa", ""⟩, ⟨"text", "aaaaaaaaaaaa", ""⟩],
        c.getLast? = some ⟨"text", "aaaaaaaaaaaa", ""⟩ ∧
          sumTok (fun s => s.length) c.dropLast ≤ 5 :=
  ⟨by decide, by decide,
    c2_amended (fun s => s.length) 10 5
      [⟨"text", "aaa", ""⟩, ⟨"text", "aaaaaaaaaaaa", ""⟩]
      ⟨"text", "aaaaaaaaaaaa", ""⟩ (by decide) (by decide)⟩

/-- Invariant behind C3: consecutive chunks are linked by the overlap
seed — the overlap blocks of a closed chunk are a prefix of the next
buffer, and this is preserved by every loop step. -/
theorem ccFoldl_overlapChain (tok : String → Nat) (cs co : Nat) :
    ∀ (blocks : List Block) (st : CCState),
      List.Chain' (fun c c' => get_overlap_blocks tok co c <+: c') st.chunks →
      (∀ l, st.chunks.getLast? = some l → get_overlap_blocks tok co l <+: st.cur) →
      List.Chain' (fun c c' => get_overlap_blocks tok co c <+: c')
          (blocks.foldl (ccStep tok cs co) st).chunks ∧
        (∀ l, (blocks.foldl (ccStep tok cs co) st).chunks.getLast? = some l →
          get_overlap_blocks tok co l <+: (blocks.foldl (ccStep tok cs co) st).cur) := by
  intro blocks
  induction blocks with
  | nil => intro st h1 h2; exact ⟨h1, h2⟩
  | cons b rest ih =>
    intro st h1 h2
    rw [List.foldl_cons]
    refine ih (ccStep tok cs co st b) ?_ ?_
    · simp only [ccStep]
      by_cases hc : cs < st.size + tok b.content ∧ st.cur ≠ []
      · rw [if_pos hc]
        refine List.chain'_append.mpr ⟨h1, List.chain'_singleton _, ?_⟩
        intro x hx y hy
        rw [show ([st.cur].head? = some st.cur) from rfl, Option.mem_def,
          Option.some_inj] at hy
        rw [← hy]
        exact h2 x hx
      · rw [if_neg hc]
        exact h1
    · simp only [ccStep]
      by_cases hc : cs < st.size + tok b.content ∧ st.cur ≠ []
      · rw [if_pos hc]
        intro l hl
        rw [show ((⟨st.chunks ++ [st.cur], get_overlap_blocks tok co st.cur ++ [b],
              sumTok tok (get_overlap_blocks tok co st.cur ++ [b])⟩ : CCState).chunks =
            st.chunks ++ [st.cur]) from rfl, List.getLast?_concat,
          Option.some_inj] at hl
        rw [← hl]
        exact List.prefix_append _ _
      · rw [if_neg hc]
        intro l hl
        exact (h2 l hl).trans (List.prefix_append _ _)

/-- Claim C3, confirmed: along the chunk sequence emitted by
`create_contextual_chunks` for one document, every pair of consecutive
chunks `c, c'` satisfies: the overlap blocks of `c` (the seed placed at
the start of `c'`) are a prefix of `c'`, an exact suffix of `c` (whole
blocks, never sliced), and their combined token count is at most
`chunk_overlap`. -/
theorem c3_confirmed (tok : String → Nat) (cs co : Nat) (blocks : List Block) :
    List.Chain'
      (fun c c' => get_overlap_blocks tok co c <+: c' ∧
        get_overlap_blocks tok co c <:+ c ∧
        sumTok tok (get_overlap_blocks tok co c) ≤ co)
      (create_contextual_chunks tok cs co blocks) := by
  have h := ccFoldl_overlapChain tok cs co blocks ⟨[], [], 0⟩ (by simp) (by simp)
  have hfin : List.Chain' (fun c c' => get_overlap_blocks tok co c <+: c')
      (create_contextual_chunks tok cs co blocks) := by
    unfold create_contextual_chunks ccFinal
    split
    · refine List.chain'_append.mpr ⟨h.1, List.chain'_singleton _, ?_⟩
      intro x hx y hy
      rw [Option.mem_def, show ([(ccFold tok cs co blocks).cur].head? =
          some (ccFold tok cs co blocks).cur) from rfl, Option.some_inj] at hy
      rw [← hy]
      exact h.2 x hx
    · exact h.1
  exact hfin.imp (fun a b hp =>
    ⟨hp, get_overlap_blocks_isSuffix tok co a, get_overlap_blocks_sum_le tok co a⟩)

/-! Embedding of the hybrid search and ranking pipeline
(`VectorStore.combine_search_results`, `RAGSystem.filter_and_rank_results`
and their callers). -/

/-- Model of a `SearchResult` (`rag.py` lines 112-117): the chunk id, the
relevance score, the `relevance_type` label, and the chunk metadata's
`content_types` list (written `tags` here).  Scores are modelled as
rationals; chunk ids, strings in the source, are modelled as naturals
(an ordered id space, which is all the claims use). -/
structure SR where
  id : Nat
  score : ℚ
  rtype : String
  tags : List String
deriving DecidableEq

/-- Upsert into an insertion-ordered association list, the model of a
Python `dict` write `d[k] = v`: an existing entry for the id is replaced
in place, a new id is appended. -/
def dictUpsert (m : List SR) (r : SR) : List SR :=
  if m.any (fun e => e.id == r.id) then m.map (fun e => if e.id == r.id then r else e)
  else m ++ [r]

/-- Weighted semantic entry as it enters the fusion dictionary of
`combine_search_results` (score `semantic_weight * result.score`, label
and chunk carried over from the semantic result). -/
def mkSem (sw : ℚ) (r : SR) : SR := { r with score := sw * r.score }

/-- Weighted keyword-only entry as it enters the fusion dictionary
(`rag.py` lines 657-659): score `keyword_weight * result.score`, label
set to `'keyword'`. -/
def mkKw (kwW : ℚ) (r : SR) : SR := { r with score := kwW * r.score, rtype := "keyword" }

/-- In-place update of one dictionary entry when keyword result `r` hits
an id already present (`rag.py` lines 653-655): add the weighted keyword
score and set the label to `'hybrid'`. -/
def updAt (kwW : ℚ) (r e : SR) : SR :=
  if e.id == r.id then { e with score := e.score + kwW * r.score, rtype := "hybrid" } else e

/-- Semantic pass of `combine_search_results` (`rag.py` lines 645-648):
`combined_scores[doc_id] = semantic_weight * result.score` and
`all_results[doc_id] = result`. -/
def semAdd (sw : ℚ) (m : List SR) (r : SR) : List SR :=
  dictUpsert m (mkSem sw r)

/-- Keyword pass of `combine_search_results` (`rag.py` lines 651-659): an
id already present gets `keyword_weight * score` added and its label set
to `'hybrid'`; a new id is inserted with the weighted keyword score and
label `'keyword'`. -/
def kwStep (kwW : ℚ) (m : List SR) (r : SR) : List SR :=
  if m.any (fun e => e.id == r.id) then m.map (updAt kwW r)
  else m ++ [mkKw kwW r]

/-- Total order used to model Python's stable descending sort by score
(`sorted(..., key=score, reverse=True)` at line 662 and
`list.sort(key=score, reverse=True)` at line 900): higher score first,
ties by original position.  A stable sort keyed on the score alone
produces exactly the ordering by this total order on position-decorated
elements. -/
def rankLE (a b : Nat × SR) : Prop :=
  b.2.score < a.2.score ∨ (a.2.score = b.2.score ∧ a.1 ≤ b.1)

instance : DecidableRel rankLE := fun a b => by
  unfold rankLE; infer_instance

instance : IsTotal (Nat × SR) rankLE :=
  ⟨by
    intro a b
    rcases lt_trichotomy a.2.score b.2.score with h | h | h
    · exact Or.inr (Or.inl h)
    · rcases Nat.le_total a.1 b.1 with h2 | h2
      · exact Or.inl (Or.inr ⟨h, h2⟩)
      · exact Or.inr (Or.inr ⟨h.symm, h2⟩)
    · exact Or.inl (Or.inl h)⟩

instance : IsTrans (Nat × SR) rankLE :=
  ⟨by
    intro a b c hab hbc
    rcases hab with h1 | ⟨h1, h1'⟩ <;> rcases hbc with h2 | ⟨h2, h2'⟩
    · exact Or.inl (lt_trans h2 h1)
    · exact Or.inl (lt_of_le_of_lt (le_of_eq h2.symm) h1)
    · exact Or.inl (lt_of_lt_of_le h2 (le_of_eq h1.symm))
    · exact Or.inr ⟨h1.trans h2, le_trans h1' h2'⟩⟩

/-- Model of Python's stable descending sort by score: decorate each
element with its position, sort by the total order `rankLE`, forget the
positions. -/
def sortByScoreDesc (l : List SR) : List SR :=
  (l.enum.insertionSort rankLE).map Prod.snd

/-- Embedding of `VectorStore.combine_search_results` (`rag.py` lines
632-671): semantic pass, keyword pass, then the stable descending sort of
the combined-score dictionary. -/
def combine_search_results (semRes kwRes : List SR) (sw kwW : ℚ) : List SR :=
  sortByScoreDesc (kwRes.foldl (kwStep kwW) (semRes.foldl (semAdd sw) []))

/-- Embedding of `RAGSystem.create_search_filters` (`rag.py` lines
858-871); the `question` argument is accepted and unread, as in the
source. -/
def create_search_filters (question ct : String) : List (String × List String) :=
  if ct = "api" then [("content_types", ["api"])]
  else if ct = "setup" then [("content_types", ["setup"])]
  else if ct = "tutorial" then [("content_types", ["tutorial", "code"])]
  else if ct = "troubleshooting" then [("content_types", ["troubleshooting"])]
  else []

/-- Expected tag set of a context type, read off the `content_types`
entry of `create_search_filters`. -/
def expectedTags (question ct : String) : List String :=
  (((create_search_filters question ct).find? (fun p => p.1 == "content_types")).map
    Prod.snd).getD []

/-- Boost step of `RAGSystem.filter_and_rank_results` (`rag.py` lines
889-897): the `elif` chain multiplies the score by 1.2 (modelled as the
rational 6/5) when the context type is `api` and the chunk is tagged
`api`, or `tutorial` with tag `code`, or `troubleshooting` with tag
`troubleshooting`; there is no branch for `setup`. -/
def applyBoost (ct : String) (r : SR) : SR :=
  if ct = "api" ∧ r.tags.contains "api" then { r with score := r.score * (6 / 5) }
  else if ct = "tutorial" ∧ r.tags.contains "code" then { r with score := r.score * (6 / 5) }
  else if ct = "troubleshooting" ∧ r.tags.contains "troubleshooting" then
    { r with score := r.score * (6 / 5) }
  else r

/-- Condition under which `filter_and_rank_results` actually boosts a
result. -/
def boostCond (ct : String) (r : SR) : Bool :=
  (ct == "api" && r.tags.contains "api") ||
    (ct == "tutorial" && r.tags.contains "code") ||
    (ct == "troubleshooting" && r.tags.contains "troubleshooting")

/-- Embedding of `RAGSystem.filter_and_rank_results` (`rag.py` lines
873-902): drop hits below `similarity_threshold`, boost by content type,
re-sort descending by score (Python's stable `list.sort`).  The
`question` and `filters` arguments are accepted and unread, exactly as in
the source body. -/
def filter_and_rank_results (thr : ℚ) (results : List SR) (question ct : String)
    (filters : List (String × List String)) : List SR :=
  sortByScoreDesc ((results.filter (fun r => decide (thr ≤ r.score))).map (applyBoost ct))

/-- Embedding of `VectorStore.hybrid_search` (`rag.py` lines 561-583).
The semantic side runs `self.search`, which starts by calling the
embedding model; `semRes = none` models that call raising (provider
unavailable or errors) — the exception propagates, so the whole search
yields no result.  `semRes = some sem` carries the semantic candidate
list, `kwRes` the keyword candidate list. -/
def hybrid_search (semRes : Option (List SR)) (kwRes : List SR) (top_k : Nat)
    (sw kwW : ℚ) : Option (List SR) :=
  semRes.map (fun sem => (combine_search_results sem kwRes sw kwW).take top_k)

/-- Body of `RAGSystem.retrieve_context` (`rag.py` lines 812-841) after
the `filters` value has been computed, taking that value as an explicit
argument: hybrid search with `max_chunks * 2` candidates (no filters
passed), then `filter_and_rank_results`, then truncation to
`max_chunks`. -/
def retrieve_context_with (semRes : Option (List SR)) (kwRes : List SR) (sw kwW thr : ℚ)
    (question ct : String) (max_chunks : Nat) (filters : List (String × List String)) :
    Option (List SR) :=
  (hybrid_search semRes kwRes (max_chunks * 2) sw kwW).map
    (fun res => (filter_and_rank_results thr res question ct filters).take max_chunks)

/-- Embedding of `RAGSystem.retrieve_context` (`rag.py` lines 812-841):
the filters are produced by `create_search_filters` and handed to
`filter_and_rank_results`. -/
def retrieve_context (semRes : Option (List SR)) (kwRes : List SR) (sw kwW thr : ℚ)
    (question ct : String) (max_chunks : Nat) : Option (List SR) :=
  retrieve_context_with semRes kwRes sw kwW thr question ct max_chunks
    (create_search_filters question ct)

/-- Outcome of `RAGSystem.query` (`rag.py` lines 761-810) as far as the
claims need it: either the normal path, carrying the ranked hits that
the answer is generated from, or the `except` path (lines 801-810),
which returns the apology `RAGResponse` with confidence 0.0 and no
sources. -/
inductive QueryResult where
  | answer (hits : List SR)
  | errorResponse
deriving DecidableEq

/-- Retrieval-relevant behaviour of `RAGSystem.query` on a cache miss:
any exception raised inside `retrieve_context` (in particular an
embedding-provider failure, `semRes = none`) is caught by the
`try/except` and turned into the error response. -/
def rag_query (semRes : Option (List SR)) (kwRes : List SR) (sw kwW thr : ℚ)
    (question ct : String) (max_chunks : Nat) : QueryResult :=
  match retrieve_context semRes kwRes sw kwW thr question ct max_chunks with
  | some hits => QueryResult.answer hits
  | none => QueryResult.errorResponse

/-! Embedding of the response cache (`RAGSystem.cache_response`,
`is_cache_valid`, the cache check in `query`, and
`index_documentation`).  Timestamps are rationals measured in hours. -/

/-- Embedding of `RAGSystem.is_cache_valid` (`rag.py` lines 1112-1115):
the entry is valid iff `now - created_at < timedelta(hours=ttl)`. -/
def is_cache_valid (ttlHours now created : ℚ) : Bool :=
  decide (now - created < ttlHours)

/-- Embedding of `RAGSystem.cache_response` (`rag.py` lines 1102-1110):
`self.cache[cache_key] = {'response': ..., 'timestamp': now}`, a dict
upsert.  The opaque response payload is modelled as a string. -/
def cache_response (cache : List (String × String × ℚ)) (key resp : String) (now : ℚ) :
    List (String × String × ℚ) :=
  if cache.any (fun e => e.1 == key) then
    cache.map (fun e => if e.1 == key then (key, resp, now) else e)
  else cache ++ [(key, resp, now)]

/-- Cache check at the top of `RAGSystem.query` (`rag.py` lines 772-779):
if the key is present and the entry valid, the cached response is
returned; otherwise the lookup is a miss. -/
def cache_lookup (cache : List (String × String × ℚ)) (key : String) (ttlHours now : ℚ) :
    Option String :=
  match cache.find? (fun e => e.1 == key) with
  | some e => if is_cache_valid ttlHours now e.2.2 then some e.2.1 else none
  | none => none

/-- State of a `RAGSystem` as far as claim C8 needs it: the response
cache and the indexed corpus. -/
structure RAGState where
  cache : List (String × String × ℚ)
  indexedChunks : List (List Block)

/-- Embedding of `RAGSystem.index_documentation` (`rag.py` lines
742-759): the corpus is re-processed and re-indexed; the method body
touches `self.document_processor` and `self.vector_store` only — it
never reads or writes `self.cache`. -/
def index_documentation (st : RAGState) (newChunks : List (List Block)) : RAGState :=
  { st with indexedChunks := newChunks }

/-! Lemmas about the fusion dictionary of `combine_search_results`. -/

/-- Effect of the whole keyword pass on one pre-existing dictionary
entry: if its id occurs in the keyword set, the weighted keyword score is
added and the label becomes `'hybrid'`; otherwise it is untouched. -/
def kwUpd (kwW : ℚ) (kw : List SR) (e : SR) : SR :=
  match kw.find? (fun s => s.id == e.id) with
  | some s => { e with score := e.score + kwW * s.score, rtype := "hybrid" }
  | none => e

theorem find?_id_eq_none (l : List SR) (i : Nat) (h : ∀ s ∈ l, s.id ≠ i) :
    l.find? (fun s => s.id == i) = none := by
  rw [List.find?_eq_none]
  intro s hs hbe
  exact h s hs (by simpa using hbe)

theorem kwUpd_of_none (kwW : ℚ) (kw : List SR) (e : SR)
    (h : kw.find? (fun s => s.id == e.id) = none) : kwUpd kwW kw e = e := by
  unfold kwUpd
  rw [h]

theorem kwUpd_cons_of_ne (kwW : ℚ) (r : SR) (rest : List SR) (e : SR) (h : r.id ≠ e.id) :
    kwUpd kwW (r :: rest) e = kwUpd kwW rest e := by
  unfold kwUpd
  rw [List.find?_cons_of_neg _ (by simpa using h)]

theorem kwUpd_cons_of_eq (kwW : ℚ) (r : SR) (rest : List SR) (e : SR) (h : r.id = e.id) :
    kwUpd kwW (r :: rest) e =
      { e with score := e.score + kwW * r.score, rtype := "hybrid" } := by
  unfold kwUpd
  rw [List.find?_cons_of_pos _ (by simpa using h)]

theorem updAt_id (kwW : ℚ) (r e : SR) : (updAt kwW r e).id = e.id := by
  unfold updAt
  split <;> rfl

theorem updAt_of_eq (kwW : ℚ) (r e : SR) (h : e.id = r.id) :
    updAt kwW r e = { e with score := e.score + kwW * r.score, rtype := "hybrid" } := by
  unfold updAt
  rw [if_pos (by simpa using h)]

theorem updAt_of_ne (kwW : ℚ) (r e : SR) (h : ¬ e.id = r.id) : updAt kwW r e = e := by
  unfold updAt
  rw [if_neg (by simpa using h)]

theorem mkSem_id (sw : ℚ) (r : SR) : (mkSem sw r).id = r.id := rfl

theorem mkKw_id (kwW : ℚ) (r : SR) : (mkKw kwW r).id = r.id := rfl

theorem semFoldl_eq (sw : ℚ) :
    ∀ (sem : List SR), (sem.map SR.id).Nodup →
      ∀ (acc : List SR), (∀ r ∈ sem, ∀ e ∈ acc, e.id ≠ r.id) →
        sem.foldl (semAdd sw) acc = acc ++ sem.map (mkSem sw) := by
  intro sem
  induction sem with
  | nil => intro _ acc _; simp
  | cons r rest ih =>
    intro hnd acc hfresh
    rw [List.map_cons, List.nodup_cons] at hnd
    have hany : (acc.any fun e => e.id == (mkSem sw r).id) = false := by
      rw [List.any_eq_false]
      intro e he
      have := hfresh r (List.mem_cons_self r rest) e he
      simpa [mkSem] using this
    have hstep : semAdd sw acc r = acc ++ [mkSem sw r] := by
      unfold semAdd dictUpsert
      rw [hany]
      simp
    have hfresh2 : ∀ r' ∈ rest, ∀ e ∈ acc ++ [mkSem sw r], e.id ≠ r'.id := by
      intro r' hr' e he
      rcases List.mem_append.mp he with he | he
      · exact hfresh r' (List.mem_cons_of_mem r hr') e he
      · rw [List.mem_singleton.mp he, mkSem_id]
        intro hev
        exact hnd.1 (hev ▸ List.mem_map_of_mem SR.id hr')
    rw [List.foldl_cons, hstep, ih hnd.2 (acc ++ [mkSem sw r]) hfresh2,
      List.map_cons, List.append_assoc, List.singleton_append]

theorem kwFoldl_eq (kwW : ℚ) :
    ∀ (kw : List SR), (kw.map SR.id).Nodup →
      ∀ (m : List SR),
        kw.foldl (kwStep kwW) m =
          m.map (kwUpd kwW kw) ++
            (kw.filter (fun s => !(m.any (fun e => e.id == s.id)))).map (mkKw kwW) := by
  intro kw
  induction kw with
  | nil =>
    intro _ m
    have : m.map (kwUpd kwW []) = m := by
      apply List.map_id''
      intro e
      exact kwUpd_of_none kwW [] e rfl
    simp [this]
  | cons r rest ih =>
    intro hnd m
    rw [List.map_cons, List.nodup_cons] at hnd
    have hrid : ∀ s ∈ rest, r.id ≠ s.id := by
      intro s hs hev
      exact hnd.1 (hev ▸ List.mem_map_of_mem SR.id hs)
    rw [List.foldl_cons]
    by_cases hin : (m.any fun e => e.id == r.id) = true
    · have hstep : kwStep kwW m r = m.map (updAt kwW r) := by
        unfold kwStep
        rw [if_pos hin]
      rw [hstep, ih hnd.2]
      have hmap : (m.map (updAt kwW r)).map (kwUpd kwW rest) =
          m.map (kwUpd kwW (r :: rest)) := by
        rw [List.map_map]
        apply List.map_congr_left
        intro e _
        show kwUpd kwW rest (updAt kwW r e) = kwUpd kwW (r :: rest) e
        by_cases hid : e.id = r.id
        · rw [updAt_of_eq kwW r e hid, kwUpd_cons_of_eq kwW r rest e hid.symm]
          apply kwUpd_of_none
          apply find?_id_eq_none
          intro s hs
          show s.id ≠ e.id
          rw [hid]
          exact fun hev => hrid s hs hev.symm
        · rw [updAt_of_ne kwW r e hid, kwUpd_cons_of_ne kwW r rest e (fun hev => hid hev.symm)]
      have hfil : rest.filter (fun s => !((m.map (updAt kwW r)).any (fun e => e.id == s.id))) =
          rest.filter (fun s => !(m.any (fun e => e.id == s.id))) := by
        apply List.filter_congr
        intro s _
        rw [List.any_map]
        have : ((fun e => e.id == s.id) ∘ updAt kwW r) = fun e => e.id == s.id := by
          funext e
          simp [Function.comp, updAt_id]
        rw [this]
      have hhead : (r :: rest).filter (fun s => !(m.any (fun e => e.id == s.id))) =
          rest.filter (fun s => !(m.any (fun e => e.id == s.id))) := by
        rw [List.filter_cons_of_neg]
        simp [hin]
      rw [hmap, hfil, hhead]
    · have hin' : (m.any fun e => e.id == r.id) = false := by
        simpa using hin
      have hmne : ∀ e ∈ m, e.id ≠ r.id := by
        rw [List.any_eq_false] at hin'
        intro e he
        simpa using hin' e he
      have hstep : kwStep kwW m r = m ++ [mkKw kwW r] := by
        unfold kwStep
        rw [if_neg hin]
      rw [hstep, ih hnd.2]
      have hone : (m ++ [mkKw kwW r]).map (kwUpd kwW rest) =
          m.map (kwUpd kwW rest) ++ [mkKw kwW r] := by
        rw [List.map_append, List.map_singleton]
        congr 2
        apply kwUpd_of_none
        apply find?_id_eq_none
        intro s hs
        rw [mkKw_id]
        exact fun hev => hrid s hs hev.symm
      have hmap : m.map (kwUpd kwW rest) = m.map (kwUpd kwW (r :: rest)) := by
        apply List.map_congr_left
        intro e he
        exact (kwUpd_cons_of_ne kwW r rest e (fun hev => hmne e he hev.symm)).symm
      have hfil : rest.filter (fun s => !((m ++ [mkKw kwW r]).any (fun e => e.id == s.id))) =
          rest.filter (fun s => !(m.any (fun e => e.id == s.id))) := by
        apply List.filter_congr
        intro s hs
        have hmk : ((mkKw kwW r).id == s.id) = false := by
          rw [mkKw_id]
          simpa using hrid s hs
        simp [List.any_append, hmk]
      have hhead : (r :: rest).filter (fun s => !(m.any (fun e => e.id == s.id))) =
          r :: rest.filter (fun s => !(m.any (fun e => e.id == s.id))) := by
        rw [List.filter_cons_of_pos]
        simp [hin']
      rw [hone, hmap, hfil, hhead, List.map_cons, List.append_assoc, List.singleton_append]

theorem find?_eq_self_of_nodup :
    ∀ (l : List SR), (l.map SR.id).Nodup → ∀ s ∈ l, l.find? (fun x => x.id == s.id) = some s := by
  intro l
  induction l with
  | nil => intro _ s hs; exact absurd hs (List.not_mem_nil s)
  | cons a rest ih =>
    intro hnd s hs
    rw [List.map_cons, List.nodup_cons] at hnd
    rcases List.mem_cons.mp hs with rfl | hs'
    · exact List.find?_cons_of_pos _ (by simp)
    · have hne : (a.id == s.id) = false := by
        rw [beq_eq_false_iff_ne]
        intro hev
        exact hnd.1 (hev ▸ List.mem_map_of_mem SR.id hs')
      rw [List.find?_cons_of_neg _ (by simp [hne])]
      exact ih hnd.2 s hs'

theorem sortByScoreDesc_perm (l : List SR) : List.Perm (sortByScoreDesc l) l := by
  unfold sortByScoreDesc
  have h := (List.perm_insertionSort rankLE l.enum).map Prod.snd
  rwa [List.enum_map_snd] at h

theorem sortByScoreDesc_sorted (l : List SR) :
    List.Sorted (fun a b : SR => b.score ≤ a.score) (sortByScoreDesc l) := by
  unfold sortByScoreDesc
  have h := List.sorted_insertionSort rankLE l.enum
  rw [List.Sorted, List.pairwise_map]
  refine h.imp ?_
  intro a b hab
  rcases hab with h1 | ⟨h1, -⟩
  · exact le_of_lt h1
  · exact le_of_eq h1.symm

theorem kwUpd_id (kwW : ℚ) (kw : List SR) (e : SR) : (kwUpd kwW kw e).id = e.id := by
  unfold kwUpd
  split <;> rfl

/-- Score a result set assigns to a chunk id, `0` when the id is
absent — the "(0 if absent)" reading of the spec. -/
def scoreOf (l : List SR) (i : Nat) : ℚ :=
  ((l.find? (fun s => s.id == i)).map SR.score).getD 0

theorem combine_eq (semRes kwRes : List SR) (sw kwW : ℚ)
    (hs : (semRes.map SR.id).Nodup) (hk : (kwRes.map SR.id).Nodup) :
    combine_search_results semRes kwRes sw kwW =
      sortByScoreDesc
        ((semRes.map (mkSem sw)).map (kwUpd kwW kwRes) ++
          (kwRes.filter (fun s =>
            !((semRes.map (mkSem sw)).any (fun e => e.id == s.id)))).map (mkKw kwW)) := by
  unfold combine_search_results
  rw [semFoldl_eq sw semRes hs [] (by simp), List.nil_append, kwFoldl_eq kwW kwRes hk]

/-- Claim C4, confirmed: for semantic and keyword result sets (distinct
ids within each set, semantic results labelled `'semantic'` as `search`
produces them), every fused result's score is
`semantic_weight × semantic_score (0 if absent) +
keyword_weight × keyword_score (0 if absent)`, its label is `'hybrid'`
exactly when the id occurs in both sets and `'semantic'`/`'keyword'` for
one-sided ids, and every id occurring in either set is represented in
the output. -/
theorem c4_confirmed (semRes kwRes : List SR) (sw kwW : ℚ)
    (hs : (semRes.map SR.id).Nodup) (hk : (kwRes.map SR.id).Nodup)
    (hrt : ∀ r ∈ semRes, r.rtype = "semantic") :
    (∀ r ∈ combine_search_results semRes kwRes sw kwW,
        r.score = sw * scoreOf semRes r.id + kwW * scoreOf kwRes r.id ∧
        r.rtype = (if semRes.any (fun s => s.id == r.id) then
            (if kwRes.any (fun s => s.id == r.id) then "hybrid" else "semantic")
          else "keyword")) ∧
      (∀ i : Nat, ((∃ r ∈ semRes, r.id = i) ∨ (∃ r ∈ kwRes, r.id = i)) →
        ∃ r ∈ combine_search_results semRes kwRes sw kwW, r.id = i) := by
  have hperm := sortByScoreDesc_perm
    ((semRes.map (mkSem sw)).map (kwUpd kwW kwRes) ++
      (kwRes.filter (fun s =>
        !((semRes.map (mkSem sw)).any (fun e => e.id == s.id)))).map (mkKw kwW))
  rw [combine_eq semRes kwRes sw kwW hs hk]
  constructor
  · intro r hr
    have hr2 := hperm.mem_iff.mp hr
    rcases List.mem_append.mp hr2 with hA | hB
    · obtain ⟨e, he, rfl⟩ := List.mem_map.mp hA
      obtain ⟨s0, hs0, rfl⟩ := List.mem_map.mp he
      have hid : (kwUpd kwW kwRes (mkSem sw s0)).id = s0.id := by
        rw [kwUpd_id, mkSem_id]
      have hsem_find : semRes.find? (fun x => x.id == s0.id) = some s0 :=
        find?_eq_self_of_nodup semRes hs s0 hs0
      have hany_sem : (semRes.any fun x => x.id == (kwUpd kwW kwRes (mkSem sw s0)).id) =
          true := by
        rw [hid, List.any_eq_true]
        exact ⟨s0, hs0, by simp⟩
      cases hf : kwRes.find? (fun s => s.id == (mkSem sw s0).id) with
      | some s =>
        have hr_eq : kwUpd kwW kwRes (mkSem sw s0) =
            { mkSem sw s0 with
              score := (mkSem sw s0).score + kwW * s.score,
              rtype := "hybrid" } := by
          unfold kwUpd
          rw [hf]
        have hkw_find : kwRes.find? (fun x => x.id == s0.id) = some s := hf
        have hany_kw : (kwRes.any fun x =>
            x.id == (kwUpd kwW kwRes (mkSem sw s0)).id) = true := by
          rw [hid, List.any_eq_true]
          have hps := List.find?_some hkw_find
          exact ⟨s, List.mem_of_find?_eq_some hkw_find, by simpa using hps⟩
        constructor
        · rw [hid]
          unfold scoreOf
          rw [hsem_find, hkw_find, hr_eq]
          show sw * s0.score + kwW * s.score = sw * s0.score + kwW * s.score
          rfl
        · rw [hany_sem, hany_kw, if_pos rfl, if_pos rfl, hr_eq]
      | none =>
        have hr_eq : kwUpd kwW kwRes (mkSem sw s0) = mkSem sw s0 := by
          unfold kwUpd
          rw [hf]
        have hkw_find : kwRes.find? (fun x => x.id == s0.id) = none := hf
        have hany_kw : (kwRes.any fun x =>
            x.id == (kwUpd kwW kwRes (mkSem sw s0)).id) = false := by
          rw [hid, List.any_eq_false]
          intro x hx
          exact List.find?_eq_none.mp hkw_find x hx
        constructor
        · rw [hid]
          unfold scoreOf
          rw [hsem_find, hkw_find, hr_eq]
          show sw * s0.score = sw * s0.score + kwW * ((Option.map SR.score none).getD 0)
          simp
        · rw [hany_sem, hany_kw, if_pos rfl, if_neg (by simp), hr_eq]
          exact hrt s0 hs0
    · obtain ⟨s, hsf, rfl⟩ := List.mem_map.mp hB
      have hsk : s ∈ kwRes := (List.mem_filter.mp hsf).1
      have hpred := (List.mem_filter.mp hsf).2
      have hno_sem : ∀ x ∈ semRes, x.id ≠ s.id := by
        have : ((semRes.map (mkSem sw)).any (fun e => e.id == s.id)) = false := by
          simpa using hpred
        rw [List.any_eq_false] at this
        intro x hx
        have := this (mkSem sw x) (List.mem_map_of_mem (mkSem sw) hx)
        simpa [mkSem] using this
      have hid : (mkKw kwW s).id = s.id := rfl
      have hsem_find : semRes.find? (fun x => x.id == s.id) = none :=
        find?_id_eq_none semRes s.id hno_sem
      have hkw_find : kwRes.find? (fun x => x.id == s.id) = some s :=
        find?_eq_self_of_nodup kwRes hk s hsk
      have hany_sem : (semRes.any fun x => x.id == (mkKw kwW s).id) = false := by
        rw [hid, List.any_eq_false]
        intro x hx
        simpa using hno_sem x hx
      constructor
      · rw [hid]
        unfold scoreOf
        rw [hsem_find, hkw_find]
        show kwW * s.score = sw * ((Option.map SR.score none).getD 0) + kwW * s.score
        simp
      · rw [hany_sem, if_neg (by simp)]
        rfl
  · intro i hi
    have hcover : ∃ r ∈ (semRes.map (mkSem sw)).map (kwUpd kwW kwRes) ++
        (kwRes.filter (fun s =>
          !((semRes.map (mkSem sw)).any (fun e => e.id == s.id)))).map (mkKw kwW),
        r.id = i := by
      by_cases hsem : ∃ r ∈ semRes, r.id = i
      · obtain ⟨s0, hs0, rfl⟩ := hsem
        refine ⟨kwUpd kwW kwRes (mkSem sw s0), ?_, by rw [kwUpd_id, mkSem_id]⟩
        exact List.mem_append_left _
          (List.mem_map_of_mem _ (List.mem_map_of_mem _ hs0))
      · rcases hi with hi | hi
        · exact absurd hi hsem
        obtain ⟨s, hsk, rfl⟩ := hi
        refine ⟨mkKw kwW s, ?_, rfl⟩
        apply List.mem_append_right
        apply List.mem_map_of_mem
        rw [List.mem_filter]
        refine ⟨hsk, ?_⟩
        have : ((semRes.map (mkSem sw)).any (fun e => e.id == s.id)) = false := by
          rw [List.any_eq_false]
          intro e he
          obtain ⟨x, hx, rfl⟩ := List.mem_map.mp he
          have : x.id ≠ s.id := fun hev => hsem ⟨x, hx, hev⟩
          simpa [mkSem] using this
        simp [this]
    obtain ⟨r, hrm, hri⟩ := hcover
    exact ⟨r, hperm.mem_iff.mpr hrm, hri⟩

/-- Witness: C4 evaluated on a concrete pair of result sets — one
semantic hit (id 1, score 2) and two keyword hits (ids 1 and 2), with
weights 2 and 3. -/
theorem c4_confirmed_witness :
    (([(⟨1, 2, "semantic", ["api"]⟩ : SR)].map SR.id).Nodup ∧
      ([(⟨1, 3, "keyword", []⟩ : SR), ⟨2, 5, "keyword", []⟩].map SR.id).Nodup ∧
      (∀ r ∈ [(⟨1, 2, "semantic", ["api"]⟩ : SR)], r.rtype = "semantic")) ∧
    ((∀ r ∈ combine_search_results [(⟨1, 2, "semantic", ["api"]⟩ : SR)]
          [(⟨1, 3, "keyword", []⟩ : SR), ⟨2, 5, "keyword", []⟩] 2 3,
        r.score = 2 * scoreOf [(⟨1, 2, "semantic", ["api"]⟩ : SR)] r.id +
            3 * scoreOf [(⟨1, 3, "keyword", []⟩ : SR), ⟨2, 5, "keyword", []⟩] r.id ∧
        r.rtype = (if [(⟨1, 2, "semantic", ["api"]⟩ : SR)].any (fun s => s.id == r.id) then
            (if [(⟨1, 3, "keyword", []⟩ : SR), ⟨2, 5, "keyword", []⟩].any
                (fun s => s.id == r.id) then "hybrid" else "semantic")
          else "keyword")) ∧
      (∀ i : Nat, ((∃ r ∈ [(⟨1, 2, "semantic", ["api"]⟩ : SR)], r.id = i) ∨
          (∃ r ∈ [(⟨1, 3, "keyword", []⟩ : SR), ⟨2, 5, "keyword", []⟩], r.id = i)) →
        ∃ r ∈ combine_search_results [(⟨1, 2, "semantic", ["api"]⟩ : SR)]
            [(⟨1, 3, "keyword", []⟩ : SR), ⟨2, 5, "keyword", []⟩] 2 3, r.id = i)) :=
  ⟨⟨by decide, by decide, by decide⟩,
    c4_confirmed [⟨1, 2, "semantic", ["api"]⟩]
      [⟨1, 3, "keyword", []⟩, ⟨2, 5, "keyword", []⟩] 2 3
      (by decide) (by decide) (by decide)⟩

/-- Claim C5 as stated by the spec: the ranked hit list of hybrid
retrieval is sorted descending by final score with ties between
equal-scored hits broken by ascending chunk id. -/
def C5Claim : Prop :=
  ∀ (semRes kwRes : List SR) (sw kwW thr : ℚ) (question ct : String) (mc : Nat)
    (hits : List SR),
    retrieve_context (some semRes) kwRes sw kwW thr question ct mc = some hits →
    List.Chain' (fun a b => b.score < a.score ∨ (a.score = b.score ∧ a.id < b.id)) hits

/-- C5 is refuted by the source: both sorts (`sorted(..., reverse=True)`
at line 662 and `list.sort` at line 900) are stable and keyed on the
score alone, so equal-scored hits keep dictionary insertion order —
semantic candidates before keyword-only candidates — not ascending chunk
id.  A semantic hit with id 2 and a keyword hit with id 1, fused to the
same combined score 3, come back as `[id 2, id 1]`. -/
theorem c5_counterexample : ¬ C5Claim := by
  intro h
  have hchain := h [⟨2, 3, "semantic", []⟩] [⟨1, 3, "keyword", []⟩] 1 1 0 "" "general" 2
    [⟨2, 3, "semantic", []⟩, ⟨1, 3, "keyword", []⟩]
    (of_decide_eq_true (by with_unfolding_all rfl))
  obtain ⟨hp, -⟩ := List.chain'_cons.mp hchain
  rcases hp with hlt | ⟨-, hid⟩
  · exact absurd hlt (lt_irrefl _)
  · exact absurd hid (by decide)

/-- C5 amended: the hit lists produced by `combine_search_results` and by
`filter_and_rank_results` are sorted descending by final score; ties
between equal-scored hits keep the stable order of the underlying list
(for the fusion step: semantic candidates in their order, then
keyword-only candidates in their order), not ascending chunk id.
Determinism across repeated calls holds because retrieval is a pure
function of the corpus, query and weights. -/
theorem c5_amended :
    (∀ (semRes kwRes : List SR) (sw kwW : ℚ),
      List.Sorted (fun a b : SR => b.score ≤ a.score)
        (combine_search_results semRes kwRes sw kwW)) ∧
    (∀ (thr : ℚ) (results : List SR) (question ct : String)
        (filters : List (String × List String)),
      List.Sorted (fun a b : SR => b.score ≤ a.score)
        (filter_and_rank_results thr results question ct filters)) :=
  ⟨fun _ _ _ _ => sortByScoreDesc_sorted _, fun _ _ _ _ _ => sortByScoreDesc_sorted _⟩

theorem boostFalse1 (ct : String) (r : SR) (h : ¬ (ct = "api" ∧ r.tags.contains "api")) :
    (ct == "api" && r.tags.contains "api") = false := by
  rcases not_and_or.mp h with hc | hc
  · rw [beq_eq_false_iff_ne.mpr hc, Bool.false_and]
  · rw [Bool.not_eq_true] at hc
    rw [hc, Bool.and_false]

theorem boostFalse2 (ct : String) (r : SR) (h : ¬ (ct = "tutorial" ∧ r.tags.contains "code")) :
    (ct == "tutorial" && r.tags.contains "code") = false := by
  rcases not_and_or.mp h with hc | hc
  · rw [beq_eq_false_iff_ne.mpr hc, Bool.false_and]
  · rw [Bool.not_eq_true] at hc
    rw [hc, Bool.and_false]

theorem boostFalse3 (ct : String) (r : SR)
    (h : ¬ (ct = "troubleshooting" ∧ r.tags.contains "troubleshooting")) :
    (ct == "troubleshooting" && r.tags.contains "troubleshooting") = false := by
  rcases not_and_or.mp h with hc | hc
  · rw [beq_eq_false_iff_ne.mpr hc, Bool.false_and]
  · rw [Bool.not_eq_true] at hc
    rw [hc, Bool.and_false]

theorem applyBoost_eq (ct : String) (r : SR) :
    applyBoost ct r = { r with score := r.score * (if boostCond ct r then 6 / 5 else 1) } := by
  by_cases h1 : ct = "api" ∧ r.tags.contains "api"
  · have hb : boostCond ct r = true := by
      unfold boostCond
      rw [h1.2, show (ct == "api") = true from by simp [h1.1]]
      rfl
    rw [hb]
    unfold applyBoost
    rw [if_pos h1]
    simp
  · by_cases h2 : ct = "tutorial" ∧ r.tags.contains "code"
    · have hb : boostCond ct r = true := by
        unfold boostCond
        rw [h2.2, show (ct == "tutorial") = true from by simp [h2.1],
          boostFalse1 ct r h1]
        rfl
      rw [hb]
      unfold applyBoost
      rw [if_neg h1, if_pos h2]
      simp
    · by_cases h3 : ct = "troubleshooting" ∧ r.tags.contains "troubleshooting"
      · have hb : boostCond ct r = true := by
          unfold boostCond
          rw [h3.2, show (ct == "troubleshooting") = true from by simp [h3.1],
            boostFalse1 ct r h1, boostFalse2 ct r h2]
          rfl
        rw [hb]
        unfold applyBoost
        rw [if_neg h1, if_neg h2, if_pos h3]
        simp
      · have hb : boostCond ct r = false := by
          unfold boostCond
          rw [boostFalse1 ct r h1, boostFalse2 ct r h2, boostFalse3 ct r h3]
          rfl
        rw [hb]
        unfold applyBoost
        rw [if_neg h1, if_neg h2, if_neg h3]
        simp

/-- Claim C6 as stated by the spec: for every non-`general` context type,
a surviving hit whose content tags intersect the expected tag set of that
context type (per `create_search_filters`) has its score multiplied by
1.2 exactly once, and other hits are unchanged. -/
def C6Claim : Prop :=
  ∀ (thr : ℚ) (results : List SR) (question ct : String)
    (filters : List (String × List String)),
    ct ∈ (["api", "setup", "tutorial", "troubleshooting"] : List String) →
    ∀ r' ∈ filter_and_rank_results thr results question ct filters,
      ∃ r ∈ results, thr ≤ r.score ∧ r'.id = r.id ∧
        r'.score = r.score *
          (if (expectedTags question ct).any (fun tg => r.tags.contains tg) then 6 / 5
           else 1)

/-- C6 is refuted by the source: the boost `elif` chain (`rag.py` lines
892-897) has no branch for `context_type == 'setup'`, so a surviving hit
tagged `setup` under a `setup` context keeps its score unchanged even
though its tags intersect the expected tag set `['setup']`; the claim
would require score `1 × 1.2`.  (The `tutorial` branch is similarly
narrower than claimed: it tests only the `code` tag, not `tutorial`.) -/
theorem c6_counterexample : ¬ C6Claim := by
  intro h
  have hmem : (⟨1, 1, "semantic", ["setup"]⟩ : SR) ∈
      filter_and_rank_results 0 [⟨1, 1, "semantic", ["setup"]⟩] "" "setup" [] :=
    of_decide_eq_true (by with_unfolding_all rfl)
  obtain ⟨r, hr, -, -, hscore⟩ := h 0 [⟨1, 1, "semantic", ["setup"]⟩] "" "setup" []
    (by decide) ⟨1, 1, "semantic", ["setup"]⟩ hmem
  rw [List.mem_singleton] at hr
  subst hr
  exact absurd hscore (of_decide_eq_true (by with_unfolding_all rfl))

/-- C6 amended (the boost the source actually applies): every output hit
of `filter_and_rank_results` comes from an input hit at or above the
threshold with the same id, tags and label, and its score is the input
score multiplied by 6/5 exactly when the code's boost condition holds —
context `api` with tag `api`, context `tutorial` with tag `code` (a
`tutorial` tag alone does not boost), or context `troubleshooting` with
tag `troubleshooting` — and multiplied by 1 (unchanged) otherwise; in
particular a `setup` context never boosts. -/
theorem c6_amended (thr : ℚ) (results : List SR) (question ct : String)
    (filters : List (String × List String)) :
    ∀ r' ∈ filter_and_rank_results thr results question ct filters,
      ∃ r ∈ results, thr ≤ r.score ∧ r'.id = r.id ∧ r'.tags = r.tags ∧ r'.rtype = r.rtype ∧
        r'.score = r.score * (if boostCond ct r then 6 / 5 else 1) := by
  intro r' hr'
  unfold filter_and_rank_results at hr'
  have hr2 := (sortByScoreDesc_perm _).mem_iff.mp hr'
  obtain ⟨r, hrf, rfl⟩ := List.mem_map.mp hr2
  have hrm := List.mem_filter.mp hrf
  refine ⟨r, hrm.1, by simpa using hrm.2, ?_, ?_, ?_, ?_⟩ <;> rw [applyBoost_eq]

/-- Witness: the amended C6 on a concrete surviving hit — context `api`,
one hit with tag `api` and score 5, boosted to 6 in the output. -/
theorem c6_amended_witness :
    ((⟨1, 6, "semantic", ["api"]⟩ : SR) ∈
        filter_and_rank_results 0 [⟨1, 5, "semantic", ["api"]⟩] "" "api" []) ∧
      ∃ r ∈ [(⟨1, 5, "semantic", ["api"]⟩ : SR)], (0 : ℚ) ≤ r.score ∧
        (⟨1, 6, "semantic", ["api"]⟩ : SR).id = r.id ∧
        (⟨1, 6, "semantic", ["api"]⟩ : SR).tags = r.tags ∧
        (⟨1, 6, "semantic", ["api"]⟩ : SR).rtype = r.rtype ∧
        (⟨1, 6, "semantic", ["api"]⟩ : SR).score =
          r.score * (if boostCond "api" r then 6 / 5 else 1) :=
  ⟨of_decide_eq_true (by with_unfolding_all rfl),
    c6_amended 0 [⟨1, 5, "semantic", ["api"]⟩] "" "api" [] ⟨1, 6, "semantic", ["api"]⟩
      (of_decide_eq_true (by with_unfolding_all rfl))⟩

/-- Claim C10, confirmed: `filter_and_rank_results` never reads its
`filters` argument and the retrieval pipeline's output is identical for
every value of the filters mapping; `hybrid_search` takes no filters at
all, so the per-context content-type filters have no effect on which
chunks are returned. -/
theorem c10_confirmed :
    (∀ (thr : ℚ) (results : List SR) (question ct : String)
        (f₁ f₂ : List (String × List String)),
      filter_and_rank_results thr results question ct f₁ =
        filter_and_rank_results thr results question ct f₂) ∧
    (∀ (semRes : Option (List SR)) (kwRes : List SR) (sw kwW thr : ℚ)
        (question ct : String) (mc : Nat) (f₁ f₂ : List (String × List String)),
      retrieve_context_with semRes kwRes sw kwW thr question ct mc f₁ =
        retrieve_context_with semRes kwRes sw kwW thr question ct mc f₂) :=
  ⟨fun _ _ _ _ _ _ => rfl, fun _ _ _ _ _ _ _ _ _ _ => rfl⟩

/-- Claim C9 as stated by the spec: when the embedding provider is
unavailable or raises, retrieval falls back to keyword-only search — the
query still returns ranked hits (the keyword ranking with semantic
contribution 0) instead of an error response. -/
def C9Claim : Prop :=
  ∀ (kwRes : List SR) (sw kwW thr : ℚ) (question ct : String) (mc : Nat),
    ∃ hits,
      rag_query none kwRes sw kwW thr question ct mc = QueryResult.answer hits ∧
      hits = (filter_and_rank_results thr
        ((combine_search_results [] kwRes sw kwW).take (mc * 2)) question ct
        (create_search_filters question ct)).take mc

/-- C9 is refuted by the source: `VectorStore.search` calls the embedding
model with no exception handling, `hybrid_search` and `retrieve_context`
propagate the exception, and `RAGSystem.query`'s blanket `except` turns
it into the apology response with confidence 0.0 and no sources; no code
path performs a keyword-only search. -/
theorem c9_counterexample : ¬ C9Claim := by
  intro h
  obtain ⟨hits, heq, -⟩ := h [⟨1, 1, "keyword", []⟩] 1 1 0 "" "general" 1
  have hrfl : rag_query none [(⟨1, 1, "keyword", []⟩ : SR)] 1 1 0 "" "general" 1 =
      QueryResult.errorResponse := rfl
  rw [hrfl] at heq
  exact QueryResult.noConfusion heq

/-- C9 amended: an embedding-provider failure makes the whole query
return the error response (zero confidence, no sources); there is no
keyword-only fallback. -/
theorem c9_amended (kwRes : List SR) (sw kwW thr : ℚ) (question ct : String) (mc : Nat) :
    rag_query none kwRes sw kwW thr question ct mc = QueryResult.errorResponse := rfl

theorem cache_response_find? (cache : List (String × String × ℚ)) (key resp : String)
    (now : ℚ) :
    (cache_response cache key resp now).find? (fun e => e.1 == key) =
      some (key, resp, now) := by
  induction cache with
  | nil =>
    unfold cache_response
    rw [if_neg (by simp)]
    simp
  | cons e rest ih =>
    unfold cache_response
    by_cases he : (e.1 == key) = true
    · rw [if_pos (by simp [List.any_cons, he])]
      rw [List.map_cons, if_pos he, List.find?_cons_of_pos _ (by simp)]
    · by_cases hr : (rest.any fun x => x.1 == key) = true
      · rw [if_pos (by simp [List.any_cons, hr])]
        rw [List.map_cons, if_neg he, List.find?_cons_of_neg _ (by simp [he])]
        unfold cache_response at ih
        rw [if_pos hr] at ih
        exact ih
      · rw [if_neg (by simp [List.any_cons, he, hr])]
        rw [List.cons_append, List.find?_cons_of_neg _ (by simp [he])]
        unfold cache_response at ih
        rw [if_neg hr] at ih
        exact ih

/-- Claim C7, confirmed: after `cache_response` stores a response under a
key at time `T`, the cache check of `query` on that key is a hit (the
stored response) at every time strictly before `T + ttl` and a miss at
every time at or after `T + ttl` — `is_cache_valid` accepts exactly when
`now − created_at < ttl`. -/
theorem c7_confirmed (cache : List (String × String × ℚ)) (key resp : String)
    (T ttl t : ℚ) :
    cache_lookup (cache_response cache key resp T) key ttl t =
      if t < T + ttl then some resp else none := by
  unfold cache_lookup
  rw [cache_response_find? cache key resp T]
  show (if is_cache_valid ttl t T = true then some resp else none) =
    if t < T + ttl then some resp else none
  unfold is_cache_valid
  have hiff : (t - T < ttl) ↔ (t < T + ttl) := by
    rw [add_comm T ttl]
    exact sub_lt_iff_lt_add
  by_cases h : t - T < ttl
  · rw [if_pos (show decide (t - T < ttl) = true by simpa using h), if_pos (hiff.mp h)]
  · rw [if_neg (show ¬ decide (t - T < ttl) = true by simpa using h),
      if_neg (fun hc => h (hiff.mpr hc))]

/-- Claim C8 as stated by the spec: every cache entry present (a hit)
before an index rebuild is a miss immediately after
`index_documentation` completes. -/
def C8Claim : Prop :=
  ∀ (st : RAGState) (newChunks : List (List Block)) (key : String) (ttl t : ℚ),
    (cache_lookup st.cache key ttl t).isSome = true →
    cache_lookup (index_documentation st newChunks).cache key ttl t = none

/-- C8 is refuted by the source: `RAGSystem.index_documentation`
(`rag.py` lines 742-759) re-processes and re-indexes the corpus but
never reads or writes `self.cache`, so a fresh entry keeps hitting right
through a rebuild.  Concretely, a state whose cache holds key `"k"`
written at time 0 still returns the cached response at time 0 with
`ttl = 24` after re-indexing an empty corpus. -/
theorem c8_counterexample : ¬ C8Claim := by
  intro h
  have hmiss := h ⟨[("k", "r", 0)], []⟩ [] "k" 24 0
    (of_decide_eq_true (by with_unfolding_all rfl))
  exact absurd hmiss (of_decide_eq_true (by with_unfolding_all rfl))

/-- C8 amended: an index rebuild leaves the response cache untouched —
the cache after `index_documentation` is exactly the cache before, and
every lookup behaves identically (hit or miss governed solely by the
TTL); the spec's rebuild-invalidates-cache behaviour is not implemented. -/
theorem c8_amended (st : RAGState) (newChunks : List (List Block)) :
    (index_documentation st newChunks).cache = st.cache ∧
      ∀ (key : String) (ttl t : ℚ),
        cache_lookup (index_documentation st newChunks).cache key ttl t =
          cache_lookup st.cache key ttl t :=
  ⟨rfl, fun _ _ _ => rfl⟩

end Rag
